import Mathlib

/-!
Verification of the PubGrub-style version-resolution engine of this
repository.  The `Incompatibility` operations are translated from
`src/poetry/mixology/incompatibility.py`; the `Term` / version-range layer
that those operations use is not part of the sources and is modelled from
the specification (its section 3 and 4.B).  The `LegacyRepository` release
lookup is translated from `src/poetry/repositories/legacy_repository.py`.
-/

namespace Mixology

/-- Modelled from the spec: a `Version` is an opaque totally ordered value;
we use natural numbers. -/
abbrev Version := Nat

/-- Half-open interval `[lo, hi)`; `none` as upper bound means unbounded. -/
abbrev Iv := Nat × Option Nat

/-- Interval is nonempty. -/
def ivNonempty : Iv → Bool
  | (_, none) => true
  | (lo, some hi) => lo < hi

/-- Minimum of two upper bounds (`none` = infinity). -/
def hiMin : Option Nat → Option Nat → Option Nat
  | none, h => h
  | some a, none => some a
  | some a, some b => some (min a b)

/-- Maximum of two upper bounds (`none` = infinity). -/
def hiMax : Option Nat → Option Nat → Option Nat
  | none, _ => none
  | _, none => none
  | some a, some b => some (max a b)

/-- Insert an interval into a list sorted by lower bound. -/
def insertIv (x : Iv) : List Iv → List Iv
  | [] => [x]
  | y :: ys => if x.1 ≤ y.1 then x :: y :: ys else y :: insertIv x ys

/-- Sort intervals by lower bound (insertion sort). -/
def sortIvs (l : List Iv) : List Iv := l.foldr insertIv []

/-- Given `x` before `y` in lower-bound order, do they overlap or touch? -/
def ivTouches (x y : Iv) : Bool :=
  match x.2 with
  | none => true
  | some h => y.1 ≤ h

/-- Join two overlapping or touching intervals. -/
def ivJoin (x y : Iv) : Iv := (x.1, hiMax x.2 y.2)

/-- Merge a sorted interval list, carrying the current interval `x` and
joining it with each following interval that overlaps or touches it. -/
def mergeAux (x : Iv) : List Iv → List Iv
  | [] => [x]
  | y :: ys => if ivTouches x y then mergeAux (ivJoin x y) ys else x :: mergeAux y ys

/-- Merge sorted intervals into a disjoint, non-adjacent canonical list. -/
def mergeIvs : List Iv → List Iv
  | [] => []
  | x :: rest => mergeAux x rest

/-- Canonicalize a list of intervals: drop empties, sort, merge. -/
def normIvs (l : List Iv) : List Iv := mergeIvs (sortIvs (l.filter ivNonempty))

/-- Modelled from the spec: a `VersionRange` is a union of half-open
intervals over `Version`, kept in canonical (sorted, disjoint, merged) form
so that equal ranges compare equal.  The optional excluded points of the
spec are not needed by any verified claim and are representable as interval
splits, so they are omitted. -/
structure VRange where
  intervals : List Iv
deriving DecidableEq, BEq

/-- The full range. -/
def VRange.anyRange : VRange := ⟨[(0, none)]⟩

/-- Clip interval `a` to interval `b` (intersection of two intervals). -/
def ivClip (a b : Iv) : Iv := (max a.1 b.1, hiMin a.2 b.2)

/-- Range intersection. -/
def VRange.inter (r s : VRange) : VRange :=
  ⟨normIvs (r.intervals.flatMap (fun a => s.intervals.map (ivClip a)))⟩

/-- Range union. -/
def VRange.union (r s : VRange) : VRange :=
  ⟨normIvs (r.intervals ++ s.intervals)⟩

/-- Complement helper: gaps of a canonical interval list, starting at
`start`. -/
def complAux (start : Nat) : List Iv → List Iv
  | [] => [(start, none)]
  | (lo, hi) :: rest =>
    (if start < lo then [(start, some lo)] else []) ++
      match hi with
      | none => []
      | some h => complAux h rest

/-- Range complement. -/
def VRange.compl (r : VRange) : VRange := ⟨normIvs (complAux 0 (normIvs r.intervals))⟩

/-- Range difference `r \ s`. -/
def VRange.diff (r s : VRange) : VRange := r.inter s.compl

/-- Emptiness test: the canonical empty range has no intervals. -/
def VRange.isEmpty (r : VRange) : Bool := r.intervals.isEmpty

/-- Modelled from the spec: `is_any` holds of the full range. -/
def VRange.isAny (r : VRange) : Bool := r == VRange.anyRange

/-- Modelled from the spec: a `PackageRef` names a package.  The optional
source qualifier of the spec is dropped: no verified claim depends on it,
and the spec's distinguished root ref is then simply a distinguished name. -/
abbrev PackageRef := String

/-- The distinguished root ref (the virtual package for the user's
project). -/
def rootRef : PackageRef := "root"

/-- Modelled from the spec: a `Dependency` is a package ref together with a
version range. -/
structure Dependency where
  ref : PackageRef
  constraint : VRange
deriving DecidableEq, BEq

/-- The complete name of the package (the coalescing key of
`Incompatibility.__init__`). -/
def Dependency.completeName (d : Dependency) : String := d.ref

/-- The plain package name used by the renderers. -/
def Dependency.name (d : Dependency) : String := d.ref

/-- Whether this dependency is on the root package. -/
def Dependency.isRoot (d : Dependency) : Bool := d.ref == rootRef

/-- Modelled from the spec: a `Term` is a dependency with a sign; positive
reads "package is in range", negative reads "package is not in range". -/
structure Term where
  dependency : Dependency
  positive : Bool
deriving DecidableEq, BEq

/-- Positive-sign test. -/
def Term.isPositive (t : Term) : Bool := t.positive

/-- The term's version range. -/
def Term.constraint (t : Term) : VRange := t.dependency.constraint

/-- Modelled from the spec: `inverse` flips the sign. -/
def Term.inverse (t : Term) : Term := ⟨t.dependency, !t.positive⟩

/-- Modelled from the spec: `intersect` denotes set intersection of the two
terms' version sets and returns `none` when the resulting term would be
empty (the discarded case of spec section 4.B); terms combine only when
their package refs match.  The sign of the result is positive unless both
inputs are negative, and the resulting range is computed case by case:
`pos ∧ pos` intersects, `pos ∧ neg` is a difference, `neg ∧ neg` negates the
union. -/
def Term.intersect (self other : Term) : Option Term :=
  if self.dependency.completeName != other.dependency.completeName then none
  else
    let c :=
      if self.positive && other.positive then
        self.dependency.constraint.inter other.dependency.constraint
      else if self.positive then
        self.dependency.constraint.diff other.dependency.constraint
      else if other.positive then
        other.dependency.constraint.diff self.dependency.constraint
      else
        self.dependency.constraint.union other.dependency.constraint
    if c.isEmpty then none
    else some ⟨⟨other.dependency.ref, c⟩, self.positive || other.positive⟩

/-- Modelled from the spec: `satisfies(other)` means self implies other,
defined as `self.intersect(other) == self`. -/
def Term.satisfies (self other : Term) : Bool :=
  self.intersect other == some self

mutual

/-- An incompatibility cause (`incompatibility_cause.py` is not in the
sources; the tagged union follows the spec's `IncompatibilityCause` and the
variants dispatched on by `incompatibility.py`).  A `conflict` cause keeps
its two parent incompatibilities. -/
inductive Cause where
  | root : Cause
  | dependency : Cause
  | noVersions : Cause
  | packageNotFound : Cause
  | python (pythonVersion : String) : Cause
  | platform (platformName : String) : Cause
  | conflict (conflictParent otherParent : Incompat) : Cause

/-- The stored state of an `Incompatibility`: its term list and cause.
Values are built from user input by `mkIncompat` below, which performs the
normalization of `Incompatibility.__init__`. -/
inductive Incompat where
  | mk (terms : List Term) (cause : Cause) : Incompat

end

/-- Tag test for conflict causes (`isinstance(cause, ConflictCause)`). -/
def Cause.isConflict : Cause → Bool
  | .conflict _ _ => true
  | _ => false

/-- The stored terms (`Incompatibility.terms`). -/
def Incompat.terms : Incompat → List Term
  | .mk ts _ => ts

/-- The stored cause (`Incompatibility.cause`). -/
def Incompat.cause : Incompat → Cause
  | .mk _ c => c

/-- Root-package stripping of `Incompatibility.__init__` (lines 28-37):
with more than one term and a conflict cause, positive terms on the root
package are removed. -/
def stripRoot (terms : List Term) (cause : Cause) : List Term :=
  if terms.length != 1 && cause.isConflict
      && terms.any (fun t => t.isPositive && t.dependency.isRoot) then
    terms.filter (fun t => !t.isPositive || !t.dependency.isRoot)
  else
    terms

/-- Short-circuit test of `Incompatibility.__init__` (lines 39-45): a
single term, or two terms on different complete names, skip coalescing. -/
def shortCircuit (terms : List Term) : Bool :=
  terms.length == 1
    || (terms.length == 2
        && (match terms.head?, terms.getLast? with
            | some a, some b =>
              a.dependency.completeName != b.dependency.completeName
            | _, _ => false))

/-- Ordered-dictionary lookup, modelling Python `dict` access keyed by
complete name. -/
def lookupA (n : String) : List (String × Term) → Option Term
  | [] => none
  | (k, v) :: rest => if k == n then some v else lookupA n rest

/-- Ordered-dictionary update in place, preserving insertion order. -/
def updateA (n : String) (v : Term) : List (String × Term) → List (String × Term)
  | [] => []
  | (k, w) :: rest =>
    if k == n then (k, v) :: rest else (k, w) :: updateA n v rest

/-- One iteration of the coalescing loop of `Incompatibility.__init__`
(lines 50-67).  The inner dictionary `by_ref` of the source is keyed by the
same string as the outer `by_name`, so each bucket holds exactly one term;
the ordered dictionary of buckets is an association list here.  `none`
models the assertion `by_ref[ref] is not None` firing on an empty
intersection. -/
def coalesceStep (acc : List (String × Term)) (t : Term) :
    Option (List (String × Term)) :=
  let n := t.dependency.completeName
  match lookupA n acc with
  | some existing =>
    match existing.intersect t with
    | some r => some (updateA n r acc)
    | none => none
  | none => some (acc ++ [(n, t)])

/-- The coalescing loop over all terms. -/
def buildByName (acc : List (String × Term)) : List Term →
    Option (List (String × Term))
  | [] => some acc
  | t :: ts =>
    match coalesceStep acc t with
    | none => none
    | some acc2 => buildByName acc2 ts

/-- The `new_terms` accumulation of `Incompatibility.__init__` (lines
69-78): per bucket, keep the positive terms if any exist, else all values.
Each bucket holds a single coalesced term. -/
def newTerms (acc : List (String × Term)) : List Term :=
  acc.flatMap (fun p =>
    let values := [p.2]
    let positives := values.filter Term.isPositive
    if positives.isEmpty then values else positives)

/-- The `Incompatibility` constructor (`Incompatibility.__init__`): strip
root terms, then either short-circuit or coalesce.  `none` models the
assertion abort. -/
def mkIncompat (terms : List Term) (cause : Cause) : Option Incompat :=
  let ts := stripRoot terms cause
  if shortCircuit ts then some (.mk ts cause)
  else
    match buildByName [] ts with
    | none => none
    | some acc => some (.mk (newTerms acc) cause)

/-- Distinct complete names of a term list, in first-occurrence order. -/
def namesOf : List Term → List String
  | [] => []
  | t :: ts =>
    t.dependency.completeName
      :: (namesOf ts).filter (fun n => n ≠ t.dependency.completeName)

/-- Fold a bucket of terms by intersection, `none` on an empty
intersection. -/
def foldInter (acc : Term) : List Term → Option Term
  | [] => some acc
  | t :: ts =>
    match acc.intersect t with
    | none => none
    | some r => foldInter r ts

/-- The coalesced term of the bucket of complete name `n`, `none` when some
intersection in the bucket comes up empty (or when the name is absent). -/
def bucketFold (n : String) (ts : List Term) : Option Term :=
  match ts.filter (fun t => t.dependency.completeName == n) with
  | [] => none
  | t :: rest => foldInter t rest

/-- `Incompatibility.is_failure` (lines 119-122): no terms, or a single
term on the root package. -/
def Incompat.isFailure (i : Incompat) : Bool :=
  match i.terms with
  | [] => true
  | [t] => t.dependency.isRoot
  | _ => false

/-- `Incompatibility.external_incompatibilities` (lines 103-117): traverse
conflict causes, conflict parent first, yielding the external leaves. -/
def Incompat.external : Incompat → List Incompat
  | .mk _ (.conflict c o) => Incompat.external c ++ Incompat.external o
  | .mk ts c => [.mk ts c]

/-- Rendering of a version range, modelling `str()` on a constraint. -/
def ivStr : Iv → String
  | (lo, none) => ">=" ++ toString lo
  | (lo, some hi) => ">=" ++ toString lo ++ ",<" ++ toString hi

/-- Rendering of a version range, modelling `str()` on a constraint. -/
def vrangeStr (r : VRange) : String :=
  match r.intervals with
  | [] => "<empty>"
  | ivs => String.intercalate " || " (ivs.map ivStr)

/-- Join with " or " (`" or ".join`). -/
def joinOr (l : List String) : String := String.intercalate " or " l

/-- Join with " and " (`" and ".join`). -/
def joinAnd (l : List String) : String := String.intercalate " and " l

/-- Placeholder term for list indexing that the source performs after
guards making the list provably nonempty; on an empty list the source
would raise `IndexError`. -/
def dummyTerm : Term := ⟨⟨"", ⟨[]⟩⟩, true⟩

/-- `Incompatibility._terse` (lines 450-459).  The pretty name and pretty
constraint of the source render here as the plain name and the range
rendering. -/
def terse (t : Term) (allowEvery : Bool) : String :=
  if allowEvery && t.constraint.isAny then
    "every version of " ++ t.dependency.completeName
  else if t.dependency.isRoot then
    t.dependency.name
  else
    t.dependency.name ++ " (" ++ vrangeStr t.dependency.constraint ++ ")"

/-- `Incompatibility._single_term_where` (lines 461-474): the unique term
satisfying the predicate, or `none`. -/
def singleWhereAux (p : Term → Bool) : List Term → Option Term → Option Term
  | [], found => found
  | t :: ts, found =>
    if !p t then singleWhereAux p ts found
    else
      match found with
      | some _ => none
      | none => singleWhereAux p ts (some t)

/-- `Incompatibility._single_term_where` over an incompatibility's terms. -/
def Incompat.singleTermWhere (i : Incompat) (p : Term → Bool) : Option Term :=
  singleWhereAux p i.terms none

/-- Details dictionary argument of the renderers; it is never read by any
of them in the source. -/
abbrev Details := List (String × String)

/-- Line-number suffix `f" ({line})"` used by the pairing renderers. -/
def lineParen : Option Nat → String
  | none => ""
  | some n => " (" ++ toString n ++ ")"

/-- The generic positive/negative rendering of `Incompatibility.__str__`
(lines 207-230). -/
def mixedStr (i : Incompat) : String :=
  let positive := (i.terms.filter Term.isPositive).map (fun t => terse t false)
  let negative :=
    (i.terms.filter (fun t => !t.isPositive)).map (fun t => terse t false)
  if !positive.isEmpty && !negative.isEmpty then
    if positive.length == 1 then
      let positiveTerm := (i.terms.filter Term.isPositive).headD dummyTerm
      terse positiveTerm true ++ " requires " ++ joinOr negative
    else
      "if " ++ joinAnd positive ++ " then " ++ joinOr negative
  else if !positive.isEmpty then
    "one of " ++ joinOr positive ++ " must be false"
  else
    "one of " ++ joinOr negative ++ " must be true"

/-- The fallthrough rendering of `Incompatibility.__str__` after the cause
dispatch (lines 174-230), reached only for conflict causes. -/
def genericStr (i : Incompat) : String :=
  if i.isFailure then "version solving failed"
  else
    match i.terms with
    | [t] =>
      t.dependency.name ++ " is "
        ++ (if t.isPositive then "forbidden" else "required")
    | [t1, t2] =>
      if t1.isPositive == t2.isPositive then
        if t1.isPositive then
          let package1 :=
            if t1.constraint.isAny then t1.dependency.name else terse t1 false
          let package2 :=
            if t2.constraint.isAny then t2.dependency.name else terse t2 false
          package1 ++ " is incompatible with " ++ package2
        else
          "either " ++ terse t1 false ++ " or " ++ terse t2 false
      else mixedStr i
    | _ => mixedStr i

/-- `Incompatibility.__str__` (lines 124-230).  `none` models an
`AssertionError` on a shape the asserted invariants exclude. -/
def Incompat.strS (i : Incompat) : Option String :=
  match i.cause with
  | .dependency =>
    match i.terms with
    | [depender, dependee] =>
      if depender.isPositive && !dependee.isPositive then
        some (terse depender true ++ " depends on " ++ terse dependee false)
      else none
    | _ => none
  | .python v =>
    match i.terms with
    | [t] =>
      if t.isPositive then some (terse t true ++ " requires Python " ++ v)
      else none
    | _ => none
  | .platform p =>
    match i.terms with
    | [t] =>
      if t.isPositive then some (terse t true ++ " requires platform " ++ p)
      else none
    | _ => none
  | .noVersions =>
    match i.terms with
    | [t] =>
      if t.isPositive then
        some ("no versions of " ++ t.dependency.name ++ " match "
          ++ vrangeStr t.constraint)
      else none
    | _ => none
  | .packageNotFound =>
    match i.terms with
    | [t] =>
      if t.isPositive then
        some (t.dependency.name ++ " doesn\x27t exist")
      else none
    | _ => none
  | .root =>
    match i.terms with
    | [t] =>
      if !t.isPositive && t.dependency.isRoot then
        some (t.dependency.name ++ " is "
          ++ vrangeStr t.dependency.constraint)
      else none
    | _ => none
  | .conflict _ _ => some (genericStr i)

/-- `Incompatibility._try_requires_both` (lines 266-314). -/
def tryRequiresBoth (self other : Incompat) (details : Details)
    (thisLine otherLine : Option Nat) : Option String :=
  if self.terms.length == 1 || other.terms.length == 1 then none
  else
    match self.singleTermWhere Term.isPositive,
        other.singleTermWhere Term.isPositive with
    | some thisPositive, some otherPositive =>
      if thisPositive.dependency != otherPositive.dependency then none
      else
        let thisNegatives := joinOr
          ((self.terms.filter (fun t => !t.isPositive)).map
            (fun t => terse t false))
        let otherNegatives := joinOr
          ((other.terms.filter (fun t => !t.isPositive)).map
            (fun t => terse t false))
        let verb :=
          if self.cause matches Cause.dependency
              && other.cause matches Cause.dependency then
            "depends on"
          else "requires"
        some (terse thisPositive true ++ " " ++ verb ++ " both "
          ++ thisNegatives ++ lineParen thisLine ++ " and " ++ otherNegatives
          ++ lineParen otherLine)
    | _, _ => none

/-- `Incompatibility._try_requires_through` (lines 316-392).  Note: line
329 of the source computes `other_positive` from `self`, not from `other`,
and this translation keeps that behaviour. -/
def tryRequiresThrough (self other : Incompat) (details : Details)
    (thisLine otherLine : Option Nat) : Option String :=
  if self.terms.length == 1 || other.terms.length == 1 then none
  else
    let thisNegative := self.singleTermWhere (fun t => !t.isPositive)
    let otherNegative := other.singleTermWhere (fun t => !t.isPositive)
    if thisNegative == none && otherNegative == none then none
    else
      let thisPositive := self.singleTermWhere Term.isPositive
      let otherPositive := self.singleTermWhere Term.isPositive
      let firstBranch :=
        match thisNegative, otherPositive with
        | some tn, some op =>
          if tn.dependency.name == op.dependency.name
              && tn.inverse.satisfies op then
            some (self, tn, thisLine, other, otherLine)
          else none
        | _, _ => none
      let choice :=
        match firstBranch with
        | some c => some c
        | none =>
          match otherNegative, thisPositive with
          | some otherNeg, some tp =>
            if otherNeg.dependency.name == tp.dependency.name
                && otherNeg.inverse.satisfies tp then
              some (other, otherNeg, otherLine, self, thisLine)
            else none
          | _, _ => none
      match choice with
      | none => none
      | some (prior, priorNegative, priorLine, latter, latterLine) =>
        let priorPositives := prior.terms.filter Term.isPositive
        let headPart :=
          if priorPositives.length > 1 then
            "if " ++ joinOr (priorPositives.map (fun t => terse t false))
              ++ " then "
          else
            terse (priorPositives.headD dummyTerm) true ++ " "
              ++ (if prior.cause matches Cause.dependency then "depends on"
                  else "requires") ++ " "
        some (headPart ++ terse priorNegative false ++ lineParen priorLine
          ++ " which "
          ++ (if latter.cause matches Cause.dependency then "depends on "
              else "requires ")
          ++ joinOr ((latter.terms.filter (fun t => !t.isPositive)).map
            (fun t => terse t false))
          ++ lineParen latterLine)

/-- `Incompatibility._try_requires_forbidden` (lines 394-448). -/
def tryRequiresForbidden (self other : Incompat) (details : Details)
    (thisLine otherLine : Option Nat) : Option String :=
  if self.terms.length != 1 && other.terms.length != 1 then none
  else
    let assignment :=
      if self.terms.length == 1 then (other, self, otherLine, thisLine)
      else (self, other, thisLine, otherLine)
    match assignment with
    | (prior, latter, priorLine, latterLine) =>
      match prior.singleTermWhere (fun t => !t.isPositive) with
      | none => none
      | some negative =>
        let latterTerm := latter.terms.headD dummyTerm
        if !(negative.inverse.satisfies latterTerm) then none
        else
          let positives := prior.terms.filter Term.isPositive
          let headPart :=
            if positives.length > 1 then
              "if " ++ joinOr (positives.map (fun t => terse t false))
                ++ " then "
            else
              terse (positives.headD dummyTerm) true
                ++ (if prior.cause matches Cause.dependency then
                      " depends on "
                    else " requires ")
          let whichPart :=
            match latter.cause with
            | .python v => "which requires Python " ++ v
            | .noVersions => "which doesn\x27t match any versions"
            | .packageNotFound => "which doesn\x27t exist"
            | _ => "which is forbidden"
          some (headPart ++ terse latterTerm false ++ " "
            ++ (match priorLine with
                | some n => "(" ++ toString n ++ ") "
                | none => "")
            ++ whichPart ++ lineParen latterLine)

/-- `Incompatibility.and_to_string` (lines 232-264): try the three
templates in order, then fall back to newline-joined concatenation.  The
fallback renders both incompatibilities with `__str__`, so `none` models an
assertion failure inside those renderings. -/
def Incompat.andToString (self other : Incompat) (details : Details)
    (thisLine otherLine : Option Nat) : Option String :=
  match tryRequiresBoth self other details thisLine otherLine with
  | some s => some s
  | none =>
    match tryRequiresThrough self other details thisLine otherLine with
    | some s => some s
    | none =>
      match tryRequiresForbidden self other details thisLine otherLine with
      | some s => some s
      | none =>
        match self.strS, other.strS with
        | some s1, some s2 =>
          some (String.intercalate "\n"
            ([s1]
              ++ (match thisLine with
                  | some n => [" " ++ toString n]
                  | none => [])
              ++ [" and " ++ s2]
              ++ (match otherLine with
                  | some n => [" " ++ toString n]
                  | none => [])))
        | _, _ => none

/-- Correspondence between the association list built by the coalescing
loop and the terms already processed: its keys are the distinct complete
names in first-occurrence order, and each stored term is the coalesced
intersection of its bucket. -/
def goodAcc (pre : List Term) (acc : List (String × Term)) : Prop :=
  acc.map Prod.fst = namesOf pre
    ∧ ∀ p ∈ acc, bucketFold p.1 pre = some p.2

/-- Sample range `[10, 20)`. -/
def sampleR10 : VRange := ⟨[(10, some 20)]⟩

/-- Sample range `[20, 30)`. -/
def sampleR20 : VRange := ⟨[(20, some 30)]⟩

/-- Sample positive term on package `a`. -/
def sampleA : Term := ⟨⟨"a", sampleR10⟩, true⟩

/-- Sample positive term on package `b`. -/
def sampleB : Term := ⟨⟨"b", sampleR20⟩, true⟩

/-- Sample negative term on package `b`. -/
def sampleNotB : Term := ⟨⟨"b", sampleR20⟩, false⟩

/-- Sample negative term on package `c`. -/
def sampleNotC : Term := ⟨⟨"c", sampleR10⟩, false⟩

/-- Sample external incompatibility used as a conflict parent. -/
def sampleLeaf : Incompat := .mk [sampleA] .noVersions

/-- Reachability through conflict parent links: from a conflict-caused
incompatibility one may step to either parent. -/
inductive Reaches : Incompat → Incompat → Prop where
  | refl (i : Incompat) : Reaches i i
  | left (ts : List Term) (c o j : Incompat) :
      Reaches c j → Reaches (Incompat.mk ts (Cause.conflict c o)) j
  | right (ts : List Term) (c o j : Incompat) :
      Reaches o j → Reaches (Incompat.mk ts (Cause.conflict c o)) j

end Mixology

namespace LegacyRepo

/-- An HTTP response, with the fields `_get_page` reads. -/
structure HttpResponse where
  url : String
  text : String
deriving DecidableEq

/-- A parsed simple-repository index page
(`SimpleRepositoryPage(response.url, response.text)`). -/
structure SimpleRepositoryPage where
  url : String
  text : String
deriving DecidableEq

/-- A distribution link found on an index page. -/
structure Link where
  url : String
deriving DecidableEq

/-- The `PackageNotFound` exception raised by `_get_release_info`. -/
structure PackageNotFoundErr where
  message : String
deriving DecidableEq

/-- The package-info skeleton built by `_get_release_info` (lines
118-127). -/
structure PackageInfo where
  name : String
  version : String
  summary : String
  platformField : Option String
  requiresDist : List String
  requiresPython : Option String
  files : List String
  cacheVersion : String
deriving DecidableEq

/-- Modelled from the spec: `CACHE_VERSION` lives in the HTTP repository
base class, outside the sources; only its string rendering matters here. -/
def cacheVersionStr : String := "1"

/-- Modelled from the spec: name canonicalization is performed by the
external `packaging` library; the claims only need it to be a function of
the name, so lower-casing stands in for it. -/
def canonicalizeName (s : String) : String := s.toLower

/-- The base `PackageInfo` value constructed by `_get_release_info`. -/
def basePackageInfo (name version : String) : PackageInfo :=
  ⟨name, version, "", none, [], none, [], cacheVersionStr⟩

/-- `LegacyRepository._get_page` (lines 130-134): fetch a response for the
endpoint, `none` when there is no response, else wrap it in a page.  The
underlying `_get_response` lives in the HTTP base class outside the
sources and is a parameter. -/
def getPage (getResponse : String → Option HttpResponse)
    (endpoint : String) : Option SimpleRepositoryPage :=
  match getResponse endpoint with
  | none => none
  | some r => some ⟨r.url, r.text⟩

/-- `LegacyRepository._get_release_info` (lines 109-128): fetch the index
page of the canonicalized name; raise `PackageNotFound` when it is absent,
else collect the version's links and build the release data.  The page
parser `links_for_version` and the builder `_links_to_data` live outside
the sources and are parameters. -/
def getReleaseInfo {R : Type}
    (getResponse : String → Option HttpResponse)
    (linksForVersion : SimpleRepositoryPage → String → String → List Link)
    (linksToData : List Link → PackageInfo → R)
    (name version : String) : Except PackageNotFoundErr R :=
  match getPage getResponse ("/" ++ canonicalizeName name ++ "/") with
  | none =>
    .error ⟨"No package named \x22" ++ name ++ "\x22"⟩
  | some page =>
    .ok (linksToData (linksForVersion page name version)
      (basePackageInfo name version))

end LegacyRepo

namespace Mixology

/-- Claim C10: a one-element terms list is stored exactly as given, for
every cause: neither root stripping nor coalescing applies to singleton
inputs, including a positive root term under a conflict cause. -/
theorem c10_singleton_stored_verbatim (t : Term) (c : Cause) :
    mkIncompat [t] c = some (Incompat.mk [t] c) := rfl

/-- Claim C1 (counterexample): an incompatibility holding a single
POSITIVE term on the root ref is constructible, and `is_failure` returns
`true` on it even though its term list is not empty and is not a single
negative term on the root ref — the source checks `is_root` but not the
sign. -/
theorem c1_counterexample :
    mkIncompat [⟨⟨rootRef, sampleR10⟩, true⟩] Cause.root
        = some (Incompat.mk [⟨⟨rootRef, sampleR10⟩, true⟩] Cause.root)
      ∧ (Incompat.mk [⟨⟨rootRef, sampleR10⟩, true⟩] Cause.root).isFailure = true
      ∧ ¬ ((Incompat.mk [⟨⟨rootRef, sampleR10⟩, true⟩] Cause.root).terms = []
          ∨ ∃ t, (Incompat.mk [⟨⟨rootRef, sampleR10⟩, true⟩] Cause.root).terms
                = [t]
              ∧ t.isPositive = false ∧ t.dependency.isRoot = true) := by
  refine ⟨rfl, rfl, ?_⟩
  rintro (h | ⟨t, ht, hneg, -⟩)
  · simp [Incompat.terms] at h
  · simp only [Incompat.terms, List.cons.injEq, and_true] at ht
    subst ht
    simp [Term.isPositive] at hneg

/-- Claim C1 (amended): `is_failure` returns `true` iff the term list is
empty, or it consists of exactly one term — of either sign — whose package
is the root ref. -/
theorem c1_is_failure_amended (i : Incompat) :
    i.isFailure = true
      ↔ (i.terms = [] ∨ ∃ t, i.terms = [t] ∧ t.dependency.isRoot = true) := by
  obtain ⟨ts, c⟩ := i
  match ts with
  | [] => simp [Incompat.isFailure, Incompat.terms]
  | [t] => simp [Incompat.isFailure, Incompat.terms]
  | a :: b :: rest => simp [Incompat.isFailure, Incompat.terms]

/-- Claim C7: an incompatibility with a `NoVersions` cause and a single
positive term renders as `no versions of {name} match {constraint}`, and
one with a `PackageNotFound` cause and a single positive term renders as
`{name} doesn't exist`. -/
theorem c7_no_versions_and_not_found_rendering (i j : Incompat) (t u : Term)
    (hti : i.terms = [t]) (hci : i.cause = Cause.noVersions)
    (hpt : t.isPositive = true)
    (htj : j.terms = [u]) (hcj : j.cause = Cause.packageNotFound)
    (hpu : u.isPositive = true) :
    i.strS = some ("no versions of " ++ t.dependency.name ++ " match "
        ++ vrangeStr t.constraint)
      ∧ j.strS = some (u.dependency.name ++ " doesn\x27t exist") := by
  obtain ⟨ts, c⟩ := i
  obtain ⟨us, d⟩ := j
  simp only [Incompat.terms] at hti htj
  simp only [Incompat.cause] at hci hcj
  subst hti hci htj hcj
  constructor
  · simp [Incompat.strS, Incompat.cause, Incompat.terms, hpt]
  · simp [Incompat.strS, Incompat.cause, Incompat.terms, hpu]

/-- Witness for claim C7 at a concrete incompatibility pair. -/
theorem c7_no_versions_and_not_found_rendering_witness :
    (Incompat.mk [sampleA] Cause.noVersions).strS
        = some ("no versions of " ++ sampleA.dependency.name ++ " match "
          ++ vrangeStr sampleA.constraint)
      ∧ (Incompat.mk [sampleA] Cause.packageNotFound).strS
        = some (sampleA.dependency.name ++ " doesn\x27t exist") :=
  c7_no_versions_and_not_found_rendering
    (Incompat.mk [sampleA] Cause.noVersions)
    (Incompat.mk [sampleA] Cause.packageNotFound)
    sampleA sampleA rfl rfl rfl rfl rfl rfl

/-- Claim C8: report rendering is deterministic — on equal incompatibility
values and equal details and line-number arguments, `__str__` and
`and_to_string` produce identical strings (both are pure functions of
their arguments). -/
theorem c8_rendering_deterministic
    (i1 i2 j1 j2 : Incompat) (d1 d2 : Details) (l1 l2 m1 m2 : Option Nat)
    (hi : i1 = i2) (hj : j1 = j2) (hd : d1 = d2) (hl : l1 = l2)
    (hm : m1 = m2) :
    i1.strS = i2.strS
      ∧ i1.andToString j1 d1 l1 m1 = i2.andToString j2 d2 l2 m2 := by
  subst hi hj hd hl hm
  exact ⟨rfl, rfl⟩

/-- Witness for claim C8 at concrete arguments. -/
theorem c8_rendering_deterministic_witness :
    (Incompat.mk [sampleA] Cause.noVersions).strS
        = (Incompat.mk [sampleA] Cause.noVersions).strS
      ∧ (Incompat.mk [sampleA] Cause.noVersions).andToString
          (Incompat.mk [sampleB] Cause.root) [] (some 1) none
        = (Incompat.mk [sampleA] Cause.noVersions).andToString
          (Incompat.mk [sampleB] Cause.root) [] (some 1) none :=
  c8_rendering_deterministic _ _ _ _ [] [] (some 1) (some 1) none none
    rfl rfl rfl rfl rfl

/-- Claim C2 (failing input): with `self = {a [10,20) , not b [20,30)}` and
`other = {b [20,30), not c [10,20)}`, both dependency-caused, the pivot
condition of the claim holds — `self` has exactly one negative term whose
inverse satisfies `other`'s exactly-one positive term — yet
`and_to_string` falls back to newline concatenation, while the swapped
call renders the requires-through template.  Line 329 of the source
computes `other_positive` from `self` instead of `other`, so the template
only fires when the pivot's prior incompatibility is the `other`
argument. -/
theorem c2_requires_through_failing_input :
    sampleNotB.inverse.satisfies sampleB = true
      ∧ (Incompat.mk [sampleA, sampleNotB] Cause.dependency).andToString
          (Incompat.mk [sampleB, sampleNotC] Cause.dependency) [] none none
        = some ("a (>=10,<20) depends on b (>=20,<30)\n and "
            ++ "b (>=20,<30) depends on c (>=10,<20)")
      ∧ (Incompat.mk [sampleB, sampleNotC] Cause.dependency).andToString
          (Incompat.mk [sampleA, sampleNotB] Cause.dependency) [] none none
        = some ("a (>=10,<20) depends on b (>=20,<30) which depends on "
            ++ "c (>=10,<20)") := by
  refine ⟨by decide, by decide, by decide⟩

/-- On a non-conflict cause, `external` yields only the incompatibility
itself. -/
theorem external_nonconflict (ts : List Term) (c : Cause)
    (h : c.isConflict = false) :
    (Incompat.mk ts c).external = [Incompat.mk ts c] := by
  cases c <;> simp_all [Incompat.external, Cause.isConflict]

/-- On a non-conflict cause, reachability is trivial. -/
theorem reaches_nonconflict (ts : List Term) (c : Cause) (j : Incompat)
    (h : c.isConflict = false) (hr : Reaches (Incompat.mk ts c) j) :
    j = Incompat.mk ts c := by
  cases hr with
  | refl => rfl
  | left ts c o j _ => simp [Cause.isConflict] at h
  | right ts c o j _ => simp [Cause.isConflict] at h

/-- Membership in `external` is reachability to a non-conflict node. -/
theorem mem_external_iff : ∀ i j : Incompat,
    j ∈ i.external ↔ (Reaches i j ∧ j.cause.isConflict = false)
  | .mk ts (.conflict c o), j => by
    have ihc := mem_external_iff c j
    have iho := mem_external_iff o j
    simp only [Incompat.external, List.mem_append]
    constructor
    · rintro (h | h)
      · exact ⟨Reaches.left ts c o j (ihc.mp h).1, (ihc.mp h).2⟩
      · exact ⟨Reaches.right ts c o j (iho.mp h).1, (iho.mp h).2⟩
    · rintro ⟨hr, hnc⟩
      cases hr with
      | refl => simp [Incompat.cause, Cause.isConflict] at hnc
      | left _ _ _ _ h => exact Or.inl (ihc.mpr ⟨h, hnc⟩)
      | right _ _ _ _ h => exact Or.inr (iho.mpr ⟨h, hnc⟩)
  | .mk ts .root, j => by
    simp only [Incompat.external, List.mem_singleton]
    constructor
    · rintro rfl
      exact ⟨Reaches.refl _, rfl⟩
    · rintro ⟨hr, -⟩
      exact reaches_nonconflict ts .root j rfl hr
  | .mk ts .dependency, j => by
    simp only [Incompat.external, List.mem_singleton]
    constructor
    · rintro rfl
      exact ⟨Reaches.refl _, rfl⟩
    · rintro ⟨hr, -⟩
      exact reaches_nonconflict ts .dependency j rfl hr
  | .mk ts .noVersions, j => by
    simp only [Incompat.external, List.mem_singleton]
    constructor
    · rintro rfl
      exact ⟨Reaches.refl _, rfl⟩
    · rintro ⟨hr, -⟩
      exact reaches_nonconflict ts .noVersions j rfl hr
  | .mk ts .packageNotFound, j => by
    simp only [Incompat.external, List.mem_singleton]
    constructor
    · rintro rfl
      exact ⟨Reaches.refl _, rfl⟩
    · rintro ⟨hr, -⟩
      exact reaches_nonconflict ts .packageNotFound j rfl hr
  | .mk ts (.python v), j => by
    simp only [Incompat.external, List.mem_singleton]
    constructor
    · rintro rfl
      exact ⟨Reaches.refl _, rfl⟩
    · rintro ⟨hr, -⟩
      exact reaches_nonconflict ts (.python v) j rfl hr
  | .mk ts (.platform p), j => by
    simp only [Incompat.external, List.mem_singleton]
    constructor
    · rintro rfl
      exact ⟨Reaches.refl _, rfl⟩
    · rintro ⟨hr, -⟩
      exact reaches_nonconflict ts (.platform p) j rfl hr

/-- Claim C6: `external_incompatibilities` yields exactly the
incompatibilities with a non-conflict cause reachable through conflict
parent links; at a conflict node the conflict parent is traversed before
the other parent; a non-conflict incompatibility yields only itself. -/
theorem c6_external_incompatibilities :
    (∀ i j : Incompat,
        j ∈ i.external ↔ (Reaches i j ∧ j.cause.isConflict = false))
      ∧ (∀ (ts : List Term) (c o : Incompat),
          (Incompat.mk ts (Cause.conflict c o)).external
            = c.external ++ o.external)
      ∧ (∀ i : Incompat, i.cause.isConflict = false → i.external = [i]) := by
  refine ⟨mem_external_iff, fun ts c o => rfl, fun i h => ?_⟩
  obtain ⟨ts, c⟩ := i
  exact external_nonconflict ts c (by simpa [Incompat.cause] using h)

/-- Witness for claim C6: a concrete two-leaf conflict derivation tree. -/
theorem c6_external_incompatibilities_witness :
    (Incompat.mk [] Cause.root).external = [Incompat.mk [] Cause.root]
      ∧ ((Incompat.mk [sampleA]
            (Cause.conflict sampleLeaf (Incompat.mk [] Cause.root))).external
          = sampleLeaf.external ++ (Incompat.mk [] Cause.root).external) :=
  ⟨c6_external_incompatibilities.2.2 (Incompat.mk [] Cause.root) rfl,
    c6_external_incompatibilities.2.1 [sampleA] sampleLeaf
      (Incompat.mk [] Cause.root)⟩

end Mixology

namespace LegacyRepo

/-- Claim C9: when the index page for a package cannot be obtained,
`_get_release_info` raises `PackageNotFound`; when the page exists it
returns the release data built from the page's links. -/
theorem c9_release_info_package_not_found {R : Type}
    (getResponse : String → Option HttpResponse)
    (linksForVersion : SimpleRepositoryPage → String → String → List Link)
    (linksToData : List Link → PackageInfo → R)
    (name version : String) :
    (getPage getResponse ("/" ++ canonicalizeName name ++ "/") = none →
        getReleaseInfo getResponse linksForVersion linksToData name version
          = Except.error ⟨"No package named \x22" ++ name ++ "\x22"⟩)
      ∧ ∀ page,
          getPage getResponse ("/" ++ canonicalizeName name ++ "/")
              = some page →
            getReleaseInfo getResponse linksForVersion linksToData name
                version
              = Except.ok (linksToData (linksForVersion page name version)
                  (basePackageInfo name version)) := by
  constructor
  · intro h
    simp [getReleaseInfo, h]
  · intro page h
    simp [getReleaseInfo, h]

/-- Witness for claim C9: a provider with no pages yields the error, and a
provider with a page yields the data. -/
theorem c9_release_info_package_not_found_witness :
    getReleaseInfo (fun _ => none) (fun _ _ _ => []) (fun links _ => links)
        "Ghost" "1.0"
      = Except.error ⟨"No package named \x22Ghost\x22"⟩
    ∧ getReleaseInfo (fun _ => some ⟨"u", "t"⟩) (fun _ _ _ => [⟨"l"⟩])
        (fun links _ => links) "Ghost" "1.0"
      = Except.ok [⟨"l"⟩] :=
  ⟨(c9_release_info_package_not_found (fun _ => none) (fun _ _ _ => [])
      (fun links _ => links) "Ghost" "1.0").1 rfl,
    (c9_release_info_package_not_found (fun _ => some ⟨"u", "t"⟩)
      (fun _ _ _ => [⟨"l"⟩]) (fun links _ => links) "Ghost" "1.0").2
      ⟨"u", "t"⟩ rfl⟩

end LegacyRepo

namespace Mixology

/-- A name occurs in `namesOf l` exactly when some term of `l` bears it. -/
theorem mem_namesOf {n : String} : ∀ {l : List Term},
    n ∈ namesOf l ↔ ∃ u ∈ l, u.dependency.completeName = n := by
  intro l
  induction l with
  | nil => simp [namesOf]
  | cons t ts ih =>
    simp only [namesOf, List.mem_cons, List.mem_filter, decide_eq_true_eq,
      ih]
    constructor
    · rintro (rfl | ⟨⟨u, hu, rfl⟩, hne⟩)
      · exact ⟨t, Or.inl rfl, rfl⟩
      · exact ⟨u, Or.inr hu, rfl⟩
    · rintro ⟨u, (rfl | hu), rfl⟩
      · exact Or.inl rfl
      · by_cases hc : u.dependency.completeName = t.dependency.completeName
        · exact Or.inl hc
        · exact Or.inr ⟨⟨u, hu, rfl⟩, hc⟩

/-- The distinct complete names contain no duplicates. -/
theorem namesOf_nodup : ∀ l : List Term, (namesOf l).Nodup := by
  intro l
  induction l with
  | nil => simp [namesOf]
  | cons t ts ih =>
    simp only [namesOf, List.nodup_cons]
    refine ⟨?_, ih.filter _⟩
    simp [List.mem_filter]

/-- Appending a term with a fresh complete name appends its name. -/
theorem namesOf_append_not_mem {t : Term} : ∀ {l : List Term},
    t.dependency.completeName ∉ namesOf l →
    namesOf (l ++ [t]) = namesOf l ++ [t.dependency.completeName] := by
  intro l
  induction l with
  | nil => intro _; simp [namesOf]
  | cons x xs ih =>
    intro h
    simp only [namesOf, List.mem_cons, List.mem_filter, decide_eq_true_eq,
      not_or] at h
    obtain ⟨hne, hnm⟩ := h
    have hnotin : t.dependency.completeName ∉ namesOf xs := by
      intro hmem
      exact hnm ⟨hmem, hne⟩
    have hstep : namesOf ((x :: xs) ++ [t])
        = x.dependency.completeName
          :: (namesOf (xs ++ [t])).filter
            (fun n => n ≠ x.dependency.completeName) := rfl
    rw [hstep, ih hnotin, List.filter_append]
    simp [namesOf, hne]

/-- Appending a term whose complete name already occurs leaves the name
list unchanged. -/
theorem namesOf_append_mem {t : Term} : ∀ {l : List Term},
    t.dependency.completeName ∈ namesOf l →
    namesOf (l ++ [t]) = namesOf l := by
  intro l
  induction l with
  | nil => simp [namesOf]
  | cons x xs ih =>
    intro h
    simp only [namesOf, List.mem_cons, List.mem_filter,
      decide_eq_true_eq] at h
    have hstep : namesOf ((x :: xs) ++ [t])
        = x.dependency.completeName
          :: (namesOf (xs ++ [t])).filter
            (fun n => n ≠ x.dependency.completeName) := rfl
    rw [hstep]
    rcases h with heq | ⟨hmem, hne⟩
    · by_cases hx : t.dependency.completeName ∈ namesOf xs
      · rw [ih hx]; rfl
      · rw [namesOf_append_not_mem hx, List.filter_append]
        simp [namesOf, heq]
    · rw [ih hmem]; rfl

/-- Folding an intersection over an appended list splits at the seam. -/
theorem foldInter_append (a : Term) : ∀ l1 l2 : List Term,
    foldInter a (l1 ++ l2)
      = match foldInter a l1 with
        | none => none
        | some m => foldInter m l2 := by
  intro l1
  induction l1 generalizing a with
  | nil => intro l2; simp [foldInter]
  | cons t ts ih =>
    intro l2
    simp only [List.cons_append, foldInter]
    cases a.intersect t with
    | none => rfl
    | some r => exact ih r l2

/-- Lookup fails exactly on absent keys. -/
theorem lookupA_eq_none_iff {n : String} : ∀ {l : List (String × Term)},
    lookupA n l = none ↔ n ∉ l.map Prod.fst := by
  intro l
  induction l with
  | nil => simp [lookupA]
  | cons p rest ih =>
    obtain ⟨k, v⟩ := p
    by_cases hk : k = n
    · subst hk
      simp [lookupA, ih]
    · simp only [lookupA, List.map_cons, List.mem_cons]
      rw [if_neg (by simpa using hk)]
      rw [ih]
      constructor
      · rintro h (rfl | hm)
        · exact hk rfl
        · exact h hm
      · intro h hm
        exact h (Or.inr hm)

/-- A successful lookup returns a stored entry. -/
theorem lookupA_some_mem {n : String} {v : Term} :
    ∀ {l : List (String × Term)}, lookupA n l = some v → (n, v) ∈ l := by
  intro l
  induction l with
  | nil => simp [lookupA]
  | cons p rest ih =>
    obtain ⟨k, w⟩ := p
    simp only [lookupA]
    by_cases hk : (k == n) = true
    · rw [if_pos hk]
      intro hv
      have hkn : k = n := by simpa using hk
      have hwv : w = v := by simpa using hv
      subst hkn
      subst hwv
      exact List.mem_cons_self _ _
    · rw [if_neg hk]
      intro h
      exact List.mem_cons_of_mem _ (ih h)

/-- Updating a key preserves the key list. -/
theorem updateA_map_fst (n : String) (v : Term) :
    ∀ l : List (String × Term),
    (updateA n v l).map Prod.fst = l.map Prod.fst := by
  intro l
  induction l with
  | nil => simp [updateA]
  | cons p rest ih =>
    obtain ⟨k, w⟩ := p
    simp only [updateA]
    by_cases hk : (k == n) = true
    · rw [if_pos hk]
      simp
    · rw [if_neg hk]
      simp [ih]

/-- With duplicate-free keys, an element of the updated list is either an
untouched entry with a different key or the new entry. -/
theorem updateA_mem {n : String} {v : Term} :
    ∀ {l : List (String × Term)}, (l.map Prod.fst).Nodup →
    ∀ p ∈ updateA n v l, (p ∈ l ∧ p.1 ≠ n) ∨ p = (n, v) := by
  intro l
  induction l with
  | nil => simp [updateA]
  | cons q rest ih =>
    obtain ⟨k, w⟩ := q
    intro hnd p hp
    simp only [List.map_cons, List.nodup_cons] at hnd
    simp only [updateA] at hp
    by_cases hk : (k == n) = true
    · rw [if_pos hk] at hp
      have hkn : k = n := by simpa using hk
      rcases List.mem_cons.mp hp with rfl | hmem
      · exact Or.inr (by rw [hkn])
      · refine Or.inl ⟨List.mem_cons_of_mem _ hmem, ?_⟩
        intro hpk
        refine hnd.1 ?_
        rw [hkn, ← hpk]
        exact List.mem_map_of_mem Prod.fst hmem
    · rw [if_neg hk] at hp
      rcases List.mem_cons.mp hp with rfl | hmem
      · exact Or.inl ⟨List.mem_cons_self _ _, by simpa using hk⟩
      · rcases ih hnd.2 p hmem with ⟨hin, hne⟩ | rfl
        · exact Or.inl ⟨List.mem_cons_of_mem _ hin, hne⟩
        · exact Or.inr rfl

end Mixology

namespace Mixology

/-- Members of a name-filtered list bear that name. -/
theorem mem_filter_cn {n : String} {l : List Term} {u : Term}
    (h : u ∈ l.filter (fun x => x.dependency.completeName == n)) :
    u ∈ l ∧ u.dependency.completeName = n := by
  have hm := List.mem_filter.mp h
  exact ⟨hm.1, by simpa using hm.2⟩

/-- Appending a term of a different name leaves a bucket fold unchanged. -/
theorem bucketFold_append_ne {n : String} {t : Term}
    (hne : t.dependency.completeName ≠ n) (l : List Term) :
    bucketFold n (l ++ [t]) = bucketFold n l := by
  have hf : (l ++ [t]).filter (fun x => x.dependency.completeName == n)
      = l.filter (fun x => x.dependency.completeName == n) := by
    rw [List.filter_append]
    simp [hne]
  simp only [bucketFold, hf]

/-- A failed bucket fold stays failed under extension of the list. -/
theorem bucketFold_none_append {n : String} {l : List Term}
    (hne : l.filter (fun x => x.dependency.completeName == n) ≠ [])
    (hnone : bucketFold n l = none) (l2 : List Term) :
    bucketFold n (l ++ l2) = none := by
  cases hfil : l.filter (fun x => x.dependency.completeName == n) with
  | nil => exact absurd hfil hne
  | cons t0 rest =>
    simp only [bucketFold, hfil] at hnone
    simp only [bucketFold, List.filter_append, hfil, List.cons_append]
    rw [foldInter_append, hnone]

/-- Structure of a successful term intersection: the package names agree,
the result carries the second term's ref, and the result is positive
unless both inputs are negative. -/
theorem intersect_some_facts {a b r : Term} (h : a.intersect b = some r) :
    a.dependency.completeName = b.dependency.completeName
      ∧ r.dependency.ref = b.dependency.ref
      ∧ r.positive = (a.positive || b.positive) := by
  simp only [Term.intersect] at h
  by_cases hne : (a.dependency.completeName != b.dependency.completeName)
      = true
  · rw [if_pos hne] at h
    exact absurd h (by simp)
  · rw [if_neg hne] at h
    have hnames : a.dependency.completeName = b.dependency.completeName := by
      simpa using hne
    repeat' split at h
    all_goals
      first
        | (simp only [Option.some.injEq] at h
           subst h
           exact ⟨hnames, rfl, rfl⟩)
        | exact absurd h (by simp)

end Mixology

namespace Mixology

/-- One step of the coalescing loop preserves the correspondence with the
processed prefix: it fails exactly when the new term's bucket fold over the
extended prefix fails, and on success the association list tracks the
extended prefix. -/
theorem stepGood {pre : List Term} {acc : List (String × Term)}
    (hg : goodAcc pre acc) (t : Term) :
    (coalesceStep acc t = none
        ↔ bucketFold t.dependency.completeName (pre ++ [t]) = none)
      ∧ ∀ acc2, coalesceStep acc t = some acc2 → goodAcc (pre ++ [t]) acc2 := by
  obtain ⟨hkeys, hvals⟩ := hg
  cases hl : lookupA t.dependency.completeName acc with
  | none =>
    have hnotin : t.dependency.completeName ∉ namesOf pre := by
      rw [← hkeys]
      exact lookupA_eq_none_iff.mp hl
    have hfil : pre.filter
        (fun u => u.dependency.completeName == t.dependency.completeName)
        = [] := by
      rw [List.filter_eq_nil_iff]
      intro u hu hbeq
      exact hnotin (mem_namesOf.mpr ⟨u, hu, by simpa using hbeq⟩)
    have hbf : bucketFold t.dependency.completeName (pre ++ [t]) = some t := by
      simp only [bucketFold, List.filter_append, hfil, List.nil_append]
      simp [foldInter]
    constructor
    · simp only [coalesceStep, hl, hbf]
      constructor
      · intro hcontra
        exact absurd hcontra (by simp)
      · intro hcontra
        exact absurd hcontra (by simp)
    · intro acc2 hacc2
      simp only [coalesceStep, hl, Option.some.injEq] at hacc2
      subst hacc2
      constructor
      · rw [List.map_append, hkeys, namesOf_append_not_mem hnotin]
        rfl
      · intro p hp
        rcases List.mem_append.mp hp with hin | hsing
        · have hp1 : p.1 ∈ namesOf pre := by
            rw [← hkeys]
            exact List.mem_map_of_mem Prod.fst hin
          have hne : t.dependency.completeName ≠ p.1 := fun hEq =>
            hnotin (hEq ▸ hp1)
          rw [bucketFold_append_ne hne]
          exact hvals p hin
        · have hps : p = (t.dependency.completeName, t) := by
            simpa using hsing
          subst hps
          exact hbf
  | some existing =>
    have hmem : (t.dependency.completeName, existing) ∈ acc :=
      lookupA_some_mem hl
    have hbfpre : bucketFold t.dependency.completeName pre = some existing :=
      hvals _ hmem
    have hnin : t.dependency.completeName ∈ namesOf pre := by
      rw [← hkeys]
      exact List.mem_map_of_mem Prod.fst hmem
    cases hfil : pre.filter
        (fun u => u.dependency.completeName == t.dependency.completeName) with
    | nil =>
      exact absurd hbfpre (by simp [bucketFold, hfil])
    | cons t0 rest =>
      have hfold : foldInter t0 rest = some existing := by
        simpa only [bucketFold, hfil] using hbfpre
      have hsingle : [t].filter
          (fun u => u.dependency.completeName == t.dependency.completeName)
          = [t] := by simp
      have hbfapp : bucketFold t.dependency.completeName (pre ++ [t])
          = foldInter existing [t] := by
        simp only [bucketFold, List.filter_append, hfil, hsingle,
          List.cons_append]
        rw [foldInter_append, hfold]
      constructor
      · simp only [coalesceStep, hl, hbfapp]
        cases hit : existing.intersect t with
        | none => simp [foldInter, hit]
        | some r => simp [foldInter, hit]
      · intro acc2 hacc2
        simp only [coalesceStep, hl] at hacc2
        cases hit : existing.intersect t with
        | none =>
          rw [hit] at hacc2
          exact absurd hacc2 (by simp)
        | some r =>
          rw [hit] at hacc2
          simp only [Option.some.injEq] at hacc2
          subst hacc2
          have hnodup : (acc.map Prod.fst).Nodup := by
            rw [hkeys]
            exact namesOf_nodup pre
          constructor
          · rw [updateA_map_fst, hkeys, namesOf_append_mem hnin]
          · intro p hp
            rcases updateA_mem hnodup p hp with ⟨hin, hne⟩ | hpr
            · rw [bucketFold_append_ne (Ne.symm hne)]
              exact hvals p hin
            · subst hpr
              rw [hbfapp]
              simp [foldInter, hit]

end Mixology

namespace Mixology

/-- The coalescing loop fails exactly when some bucket fold over the full
list fails, and on success its association list tracks the full list. -/
theorem buildGood (ts : List Term) : ∀ (pre : List Term)
    (acc : List (String × Term)), goodAcc pre acc →
    ((buildByName acc ts = none
        ↔ ∃ n ∈ namesOf (pre ++ ts), bucketFold n (pre ++ ts) = none)
      ∧ ∀ acc2, buildByName acc ts = some acc2 → goodAcc (pre ++ ts) acc2) := by
  induction ts with
  | nil =>
    intro pre acc hg
    simp only [buildByName, List.append_nil]
    constructor
    · constructor
      · intro h
        exact absurd h (by simp)
      · rintro ⟨n, hn, hnone⟩
        rw [← hg.1] at hn
        obtain ⟨p, hp, rfl⟩ := List.mem_map.mp hn
        rw [hg.2 p hp] at hnone
        exact absurd hnone (by simp)
    · rintro acc2 h
      simp only [Option.some.injEq] at h
      subst h
      exact hg
  | cons t ts ih =>
    intro pre acc hg
    have hstep := stepGood hg t
    rw [List.append_cons pre t ts]
    simp only [buildByName]
    cases hs : coalesceStep acc t with
    | none =>
      constructor
      · constructor
        · intro _
          refine ⟨t.dependency.completeName, ?_, ?_⟩
          · exact mem_namesOf.mpr ⟨t, by simp, rfl⟩
          · have hb : bucketFold t.dependency.completeName (pre ++ [t])
                = none := hstep.1.mp hs
            refine bucketFold_none_append ?_ hb ts
            intro hnil
            have ht : t ∈ (pre ++ [t]).filter
                (fun u => u.dependency.completeName
                  == t.dependency.completeName) :=
              List.mem_filter.mpr ⟨by simp, by simp⟩
            rw [hnil] at ht
            exact absurd ht (by simp)
        · intro _
          rfl
      · intro acc2 h
        exact absurd h (by simp)
    | some acc1 =>
      have hg1 : goodAcc (pre ++ [t]) acc1 := hstep.2 acc1 hs
      exact ih (pre ++ [t]) acc1 hg1

end Mixology

namespace Mixology

/-- Shapes admitted by the constructor's short-circuit test. -/
theorem shortCircuit_cases {S : List Term} (h : shortCircuit S = true) :
    (∃ a, S = [a]) ∨ ∃ a b, S = [a, b]
      ∧ a.dependency.completeName ≠ b.dependency.completeName := by
  simp only [shortCircuit, Bool.or_eq_true, Bool.and_eq_true] at h
  rcases h with h1 | ⟨h2, h3⟩
  · left
    exact List.length_eq_one.mp (by simpa using h1)
  · right
    have hlen : S.length = 2 := by simpa using h2
    obtain ⟨a, b, rfl⟩ := List.length_eq_two.mp hlen
    refine ⟨a, b, rfl, ?_⟩
    have hhead : [a, b].head? = some a := rfl
    have hlast : [a, b].getLast? = some b := rfl
    rw [hhead, hlast] at h3
    simpa using h3

/-- The constructor aborts exactly when some bucket of the stripped term
list folds to an empty intersection. -/
theorem mkIncompat_none_iff (ts : List Term) (c : Cause) :
    mkIncompat ts c = none
      ↔ ∃ n ∈ namesOf (stripRoot ts c),
          bucketFold n (stripRoot ts c) = none := by
  simp only [mkIncompat]
  by_cases hsc : shortCircuit (stripRoot ts c) = true
  · rw [if_pos hsc]
    constructor
    · intro h
      exact absurd h (by simp)
    · rintro ⟨n, hn, hnone⟩
      exfalso
      rcases shortCircuit_cases hsc with ⟨a, ha⟩ | ⟨a, b, hab, hne⟩
      · rw [ha] at hn hnone
        simp only [namesOf, List.filter_nil, List.mem_singleton] at hn
        subst hn
        simp [bucketFold, foldInter] at hnone
      · rw [hab] at hn hnone
        have hba : b.dependency.completeName ≠ a.dependency.completeName :=
          Ne.symm hne
        have hdec : decide (b.dependency.completeName
            ≠ a.dependency.completeName) = true := by simpa using hba
        simp only [namesOf, List.filter_cons, List.filter_nil, hdec,
          if_true, List.mem_cons, List.mem_singleton,
          List.not_mem_nil, or_false] at hn
        rcases hn with rfl | rfl
        · simp [bucketFold, foldInter, hba] at hnone
        · simp [bucketFold, foldInter, hne] at hnone
  · rw [if_neg hsc]
    have hb := buildGood (stripRoot ts c) [] [] ⟨rfl, by simp⟩
    simp only [List.nil_append] at hb
    cases hbn : buildByName [] (stripRoot ts c) with
    | none =>
      exact ⟨fun _ => hb.1.mp hbn, fun _ => rfl⟩
    | some acc =>
      constructor
      · intro h
        exact absurd h (by simp)
      · intro hex
        exact absurd (hb.1.mpr hex) (by simp [hbn])

end Mixology

namespace Mixology

/-- The per-bucket positive filter acts on singleton buckets, so the new
terms are the stored bucket values in order. -/
theorem newTerms_eq_map_snd (acc : List (String × Term)) :
    newTerms acc = acc.map Prod.snd := by
  unfold newTerms
  induction acc with
  | nil => rfl
  | cons p rest ih =>
    rw [List.flatMap_cons, ih, List.map_cons]
    cases hp : p.2.isPositive <;> simp [hp]

/-- A bucket fold keeps the bucket's complete name. -/
theorem foldInter_cn {n : String} : ∀ {l : List Term} {a v : Term},
    a.dependency.completeName = n → foldInter a l = some v →
    v.dependency.completeName = n := by
  intro l
  induction l with
  | nil =>
    intro a v ha h
    simp only [foldInter, Option.some.injEq] at h
    subst h
    exact ha
  | cons t ts ih =>
    intro a v ha h
    simp only [foldInter] at h
    cases hit : a.intersect t with
    | none =>
      rw [hit] at h
      exact absurd h (by simp)
    | some r =>
      rw [hit] at h
      obtain ⟨hnames, href, -⟩ := intersect_some_facts hit
      have hr : r.dependency.completeName = n := by
        have hrt : r.dependency.completeName = t.dependency.completeName :=
          href
        rw [hrt, ← hnames, ha]
      exact ih hr h

/-- A successful bucket fold returns a term named after its bucket. -/
theorem bucketFold_cn {n : String} {l : List Term} {v : Term}
    (h : bucketFold n l = some v) : v.dependency.completeName = n := by
  cases hfil : l.filter (fun u => u.dependency.completeName == n) with
  | nil => simp [bucketFold, hfil] at h
  | cons t0 rest =>
    simp only [bucketFold, hfil] at h
    have ht0 : t0 ∈ l.filter (fun u => u.dependency.completeName == n) := by
      rw [hfil]
      exact List.mem_cons_self t0 rest
    exact foldInter_cn (mem_filter_cn ht0).2 h

/-- A fold of intersections is positive when its seed or any folded term
is positive: each step's sign is the disjunction of its inputs' signs. -/
theorem foldInter_pos_of_mem : ∀ {l : List Term} {a v : Term},
    foldInter a l = some v →
    (a.positive = true ∨ ∃ u ∈ l, u.positive = true) →
    v.positive = true := by
  intro l
  induction l with
  | nil =>
    intro a v h hp
    simp only [foldInter, Option.some.injEq] at h
    subst h
    rcases hp with hp | ⟨u, hu, -⟩
    · exact hp
    · exact absurd hu (by simp)
  | cons t ts ih =>
    intro a v h hp
    simp only [foldInter] at h
    cases hit : a.intersect t with
    | none =>
      rw [hit] at h
      exact absurd h (by simp)
    | some r =>
      rw [hit] at h
      obtain ⟨-, -, hpos⟩ := intersect_some_facts hit
      refine ih h ?_
      rcases hp with hp | ⟨u, hu, hupos⟩
      · exact Or.inl (by rw [hpos, hp, Bool.true_or])
      · rcases List.mem_cons.mp hu with rfl | hu2
        · exact Or.inl (by rw [hpos, hupos, Bool.or_true])
        · exact Or.inr ⟨u, hu2, hupos⟩

/-- Claim C4: for every incompatibility whose construction completes, no
two stored terms share a package ref (complete name); moreover, when any
positive term exists for a package, the stored result for that package is
positive. -/
theorem c4_terms_coalesced_per_ref (ts : List Term) (c : Cause)
    (i : Incompat) (h : mkIncompat ts c = some i) :
    (i.terms.map (fun t => t.dependency.completeName)).Nodup
      ∧ ∀ u ∈ stripRoot ts c, u.isPositive = true →
          ∀ t ∈ i.terms,
            t.dependency.completeName = u.dependency.completeName →
            t.isPositive = true := by
  simp only [mkIncompat] at h
  by_cases hsc : shortCircuit (stripRoot ts c) = true
  · rw [if_pos hsc] at h
    simp only [Option.some.injEq] at h
    subst h
    simp only [Incompat.terms]
    rcases shortCircuit_cases hsc with ⟨a, ha⟩ | ⟨a, b, hab, hne⟩
    · rw [ha]
      refine ⟨by simp, ?_⟩
      intro u hu hupos t ht _
      have hu1 : u = a := by simpa using hu
      have ht1 : t = a := by simpa using ht
      rw [ht1, ← hu1]
      exact hupos
    · rw [hab]
      refine ⟨by simp [hne], ?_⟩
      intro u hu hupos t ht hcn
      have hu2 : u = a ∨ u = b := by simpa using hu
      have ht2 : t = a ∨ t = b := by simpa using ht
      rcases hu2 with rfl | rfl <;> rcases ht2 with rfl | rfl
      · exact hupos
      · exact absurd hcn.symm hne
      · exact absurd hcn hne
      · exact hupos
  · rw [if_neg hsc] at h
    cases hbn : buildByName [] (stripRoot ts c) with
    | none =>
      rw [hbn] at h
      exact absurd h (by simp)
    | some acc =>
      rw [hbn] at h
      simp only [Option.some.injEq] at h
      subst h
      have hg : goodAcc (stripRoot ts c) acc := by
        have hbg := buildGood (stripRoot ts c) [] [] ⟨rfl, by simp⟩
        simp only [List.nil_append] at hbg
        exact hbg.2 acc hbn
      constructor
      · simp only [Incompat.terms]
        rw [newTerms_eq_map_snd, List.map_map]
        have hmap : acc.map
            ((fun t => t.dependency.completeName) ∘ Prod.snd)
            = acc.map Prod.fst :=
          List.map_congr_left (fun p hp => bucketFold_cn (hg.2 p hp))
        rw [hmap, hg.1]
        exact namesOf_nodup _
      · intro u hu hupos t ht hcn
        simp only [Incompat.terms, newTerms_eq_map_snd] at ht
        obtain ⟨p, hp, rfl⟩ := List.mem_map.mp ht
        have hbf : bucketFold p.1 (stripRoot ts c) = some p.2 := hg.2 p hp
        have hp1 : p.1 = u.dependency.completeName := by
          rw [← bucketFold_cn hbf]
          exact hcn
        rw [hp1] at hbf
        cases hfil : (stripRoot ts c).filter
            (fun x => x.dependency.completeName
              == u.dependency.completeName) with
        | nil => simp [bucketFold, hfil] at hbf
        | cons t0 rest =>
          simp only [bucketFold, hfil] at hbf
          have humem : u ∈ t0 :: rest := by
            rw [← hfil]
            exact List.mem_filter.mpr ⟨hu, by simp⟩
          have hvpos : p.2.positive = true := by
            refine foldInter_pos_of_mem hbf ?_
            rcases List.mem_cons.mp humem with rfl | hu2
            · exact Or.inl hupos
            · exact Or.inr ⟨u, hu2, hupos⟩
          exact hvpos

/-- Witness for claim C4: two same-name negative terms and one positive
term coalesce into two distinctly named terms, and the positive package's
stored term is positive. -/
theorem c4_terms_coalesced_per_ref_witness :
    ((Incompat.mk [⟨⟨"a", ⟨[(10, some 30)]⟩⟩, false⟩,
        ⟨⟨"b", sampleR20⟩, true⟩] Cause.dependency).terms.map
      (fun t => t.dependency.completeName)).Nodup
      ∧ (⟨⟨"b", sampleR20⟩, true⟩ : Term).isPositive = true :=
  ⟨(c4_terms_coalesced_per_ref
      [⟨⟨"a", sampleR10⟩, false⟩, ⟨⟨"a", sampleR20⟩, false⟩,
        ⟨⟨"b", sampleR20⟩, true⟩]
      Cause.dependency _ rfl).1,
    (c4_terms_coalesced_per_ref
      [⟨⟨"a", sampleR10⟩, false⟩, ⟨⟨"a", sampleR20⟩, false⟩,
        ⟨⟨"b", sampleR20⟩, true⟩]
      Cause.dependency _ rfl).2
      ⟨⟨"b", sampleR20⟩, true⟩
      (List.mem_cons_of_mem _ (List.mem_cons_of_mem _
        (List.mem_cons_self _ _))) rfl
      ⟨⟨"b", sampleR20⟩, true⟩
      (List.mem_cons_of_mem _ (List.mem_cons_self _ _)) rfl⟩

/-- Claim C5: construction aborts via the assertion exactly when a bucket
of same-package terms folds to an empty intersection, and succeeds whenever
every bucket's intersection is non-empty. -/
theorem c5_assertion_abort_characterization (ts : List Term) (c : Cause) :
    (mkIncompat ts c = none
        ↔ ∃ n ∈ namesOf (stripRoot ts c),
            bucketFold n (stripRoot ts c) = none)
      ∧ ((∀ n ∈ namesOf (stripRoot ts c),
            bucketFold n (stripRoot ts c) ≠ none) →
          ∃ i, mkIncompat ts c = some i) := by
  refine ⟨mkIncompat_none_iff ts c, fun hpre => ?_⟩
  cases hm : mkIncompat ts c with
  | none =>
    obtain ⟨n, hn, hb⟩ := (mkIncompat_none_iff ts c).mp hm
    exact absurd hb (hpre n hn)
  | some i => exact ⟨i, rfl⟩

/-- Witness for claim C5: a three-term list with non-empty same-name
intersections constructs successfully. -/
theorem c5_assertion_abort_characterization_witness :
    mkIncompat [sampleA, sampleNotB, sampleNotC] Cause.dependency
      ≠ none := by
  obtain ⟨i, hi⟩ := (c5_assertion_abort_characterization
    [sampleA, sampleNotB, sampleNotC] Cause.dependency).2 (by decide)
  simp [hi]

end Mixology

namespace Mixology

/-- Intersection of two terms that are not positive-on-root is not
positive-on-root: the result's ref comes from the inputs' shared name and
its sign is the disjunction of the input signs. -/
theorem intersect_no_posroot {a b r : Term} (h : a.intersect b = some r)
    (ha : ¬(a.isPositive = true ∧ a.dependency.isRoot = true))
    (hb : ¬(b.isPositive = true ∧ b.dependency.isRoot = true)) :
    ¬(r.isPositive = true ∧ r.dependency.isRoot = true) := by
  obtain ⟨hnames, href, hpos⟩ := intersect_some_facts h
  rintro ⟨hrpos, hrroot⟩
  have hbroot : b.dependency.isRoot = true := by
    have hrb : r.dependency.isRoot = b.dependency.isRoot := by
      simp only [Dependency.isRoot, href]
    rw [← hrb]
    exact hrroot
  simp only [Term.isPositive] at hrpos
  rw [hpos] at hrpos
  rcases (by simpa using hrpos : a.positive = true ∨ b.positive = true)
    with hap | hbp
  · have haroot : a.dependency.isRoot = true := by
      have hab : a.dependency.ref = b.dependency.ref := hnames
      simp only [Dependency.isRoot, hab]
      simpa only [Dependency.isRoot] using hbroot
    exact ha ⟨hap, haroot⟩
  · exact hb ⟨hbp, hbroot⟩

/-- Folding intersections preserves not-positive-on-root. -/
theorem foldInter_no_posroot : ∀ {l : List Term} {a v : Term},
    ¬(a.isPositive = true ∧ a.dependency.isRoot = true) →
    (∀ u ∈ l, ¬(u.isPositive = true ∧ u.dependency.isRoot = true)) →
    foldInter a l = some v →
    ¬(v.isPositive = true ∧ v.dependency.isRoot = true) := by
  intro l
  induction l with
  | nil =>
    intro a v ha _ h
    simp only [foldInter, Option.some.injEq] at h
    subst h
    exact ha
  | cons t ts ih =>
    intro a v ha hl h
    simp only [foldInter] at h
    cases hit : a.intersect t with
    | none =>
      rw [hit] at h
      exact absurd h (by simp)
    | some r =>
      rw [hit] at h
      have hr := intersect_no_posroot hit ha (hl t (List.mem_cons_self t ts))
      exact ih hr (fun u hu => hl u (List.mem_cons_of_mem t hu)) h

/-- A bucket fold over not-positive-on-root terms yields a
not-positive-on-root term. -/
theorem bucketFold_no_posroot {n : String} {l : List Term} {v : Term}
    (hl : ∀ u ∈ l, ¬(u.isPositive = true ∧ u.dependency.isRoot = true))
    (h : bucketFold n l = some v) :
    ¬(v.isPositive = true ∧ v.dependency.isRoot = true) := by
  cases hfil : l.filter (fun u => u.dependency.completeName == n) with
  | nil => simp [bucketFold, hfil] at h
  | cons t0 rest =>
    simp only [bucketFold, hfil] at h
    have hsub : ∀ u ∈ t0 :: rest,
        ¬(u.isPositive = true ∧ u.dependency.isRoot = true) := by
      intro u hu
      have hufil : u ∈ l.filter (fun u => u.dependency.completeName == n) := by
        rw [hfil]; exact hu
      exact hl u (List.mem_of_mem_filter hufil)
    exact foldInter_no_posroot
      (hsub t0 (List.mem_cons_self t0 rest))
      (fun u hu => hsub u (List.mem_cons_of_mem t0 hu)) h

/-- After root stripping of a multi-term conflict incompatibility, no term
is positive on root. -/
theorem stripRoot_no_posroot (ts : List Term) (c : Cause)
    (hlen : ts.length ≠ 1) (hc : c.isConflict = true) :
    ∀ u ∈ stripRoot ts c,
      ¬(u.isPositive = true ∧ u.dependency.isRoot = true) := by
  intro u hu
  simp only [stripRoot] at hu
  by_cases hany : ts.any (fun t => t.isPositive && t.dependency.isRoot)
      = true
  · have hcond : ((ts.length != 1) && c.isConflict
        && ts.any (fun t => t.isPositive && t.dependency.isRoot)) = true := by
      simp [hany, hc, hlen]
    rw [if_pos hcond] at hu
    have hm := List.mem_filter.mp hu
    rintro ⟨hpos, hroot⟩
    have hb := hm.2
    simp [hpos, hroot] at hb
  · have hf : ts.any (fun t => t.isPositive && t.dependency.isRoot)
        = false := by
      simpa using hany
    have hcond : ((ts.length != 1) && c.isConflict
        && ts.any (fun t => t.isPositive && t.dependency.isRoot))
        = false := by
      simp [hf]
    rw [if_neg (by simp [hcond])] at hu
    rintro ⟨hpos, hroot⟩
    have := List.any_eq_false.mp hf u hu
    simp [hpos, hroot] at this

/-- Claim C3: a terms list of length at least two with a conflict cause has
every positive root term removed, so the constructed incompatibility holds
no positive term on the root package. -/
theorem c3_conflict_root_stripping (ts : List Term) (c : Cause)
    (i : Incompat) (hlen : 2 ≤ ts.length) (hc : c.isConflict = true)
    (h : mkIncompat ts c = some i) :
    ∀ t ∈ i.terms,
      ¬(t.isPositive = true ∧ t.dependency.isRoot = true) := by
  have hS := stripRoot_no_posroot ts c (by omega) hc
  simp only [mkIncompat] at h
  by_cases hsc : shortCircuit (stripRoot ts c) = true
  · rw [if_pos hsc] at h
    simp only [Option.some.injEq] at h
    subst h
    simpa only [Incompat.terms] using hS
  · rw [if_neg hsc] at h
    cases hbn : buildByName [] (stripRoot ts c) with
    | none =>
      rw [hbn] at h
      exact absurd h (by simp)
    | some acc =>
      rw [hbn] at h
      simp only [Option.some.injEq] at h
      subst h
      have hg : goodAcc (stripRoot ts c) acc := by
        have hbg := buildGood (stripRoot ts c) [] [] ⟨rfl, by simp⟩
        simp only [List.nil_append] at hbg
        exact hbg.2 acc hbn
      simp only [Incompat.terms]
      rw [newTerms_eq_map_snd]
      intro t ht
      obtain ⟨p, hp, rfl⟩ := List.mem_map.mp ht
      exact bucketFold_no_posroot hS (hg.2 p hp)

/-- Witness for claim C3: a three-term conflict list headed by a positive
root term constructs to the list with the root term stripped, whose head
is not a positive root term. -/
theorem c3_conflict_root_stripping_witness :
    ¬(sampleA.isPositive = true ∧ sampleA.dependency.isRoot = true) :=
  c3_conflict_root_stripping
    [⟨⟨rootRef, sampleR10⟩, true⟩, sampleA, sampleNotB]
    (Cause.conflict sampleLeaf sampleLeaf) _ (by decide) rfl rfl
    sampleA (List.mem_cons_self _ _)

end Mixology
